import Mathlib

/-!
Verification development for the blog-builder repository.

The TypeScript sources are shallowly embedded: strings manipulated by the
extraction heuristics become `List Char`, the cheerio DOM becomes an
inductive tree, network attempts become an oracle from attempt numbers to
outcomes, and the staged pipeline's disk state becomes explicit state
passing over an effect trace.
-/

namespace BlogBuilder

/-- Strings of the embedded program are lists of characters, so that the
regex-style replacements of the source can be modelled by structural
recursion. -/
abbrev Str := List Char

/-- Model of the JavaScript regex class \s (whitespace). -/
def isWs (c : Char) : Bool := c.isWhitespace

/-- Worker for a global regex replacement of maximal nonempty runs of
characters satisfying p by the single character r.  The flag records
whether the scanner is currently inside a run that has already emitted
its replacement. -/
def collapseRunsAux (p : Char → Bool) (r : Char) : Bool → Str → Str
  | _, [] => []
  | inRun, c :: rest =>
    if p c then
      if inRun then collapseRunsAux p r true rest
      else r :: collapseRunsAux p r true rest
    else c :: collapseRunsAux p r false rest

/-- Model of s.replace(new RegExp p-run, r) with the global flag: every
maximal run of characters satisfying p becomes the single character r. -/
def collapseRuns (p : Char → Bool) (r : Char) (l : Str) : Str :=
  collapseRunsAux p r false l

/-- Scanner for the global replacement of the pattern
newline-whitespace-newline by two newlines, with JavaScript's greedy,
leftmost, non-overlapping semantics: a match consumes a newline and the
following whitespace up to the last newline of the whitespace run.  The
state is none outside any candidate match; some (false, buf) after an
initial newline with buf the (reversed) non-newline whitespace read since
it; some (true, buf) once a second newline confirmed a match, with buf the
(reversed) non-newline whitespace read since the last newline. -/
def collapseBlankAux : Str → Option (Bool × Str) → Str
  | [], none => []
  | [], some (false, buf) => '\n' :: buf.reverse
  | [], some (true, buf) => '\n' :: '\n' :: buf.reverse
  | c :: rest, none =>
    if c = '\n' then collapseBlankAux rest (some (false, []))
    else c :: collapseBlankAux rest none
  | c :: rest, some (false, buf) =>
    if c = '\n' then collapseBlankAux rest (some (true, []))
    else if isWs c then collapseBlankAux rest (some (false, c :: buf))
    else '\n' :: (buf.reverse ++ c :: collapseBlankAux rest none)
  | c :: rest, some (true, buf) =>
    if c = '\n' then collapseBlankAux rest (some (true, []))
    else if isWs c then collapseBlankAux rest (some (true, c :: buf))
    else '\n' :: '\n' :: (buf.reverse ++ c :: collapseBlankAux rest none)

/-- Model of the global replacement of newline-whitespace-newline by two
newlines performed by extractMainContent's clean-up. -/
def collapseBlank (l : Str) : Str := collapseBlankAux l none

/-- Model of String.prototype.trim: drop whitespace from both ends. -/
def trimEnds (l : Str) : Str :=
  ((l.dropWhile isWs).reverse.dropWhile isWs).reverse

/-- Whitespace clean-up applied by extractMainContent in
src/utils/fetcher.ts: collapse whitespace runs to single spaces, collapse
blank lines, trim the ends. -/
def normalizeWs (l : Str) : Str :=
  trimEnds (collapseBlank (collapseRuns isWs ' ' l))

/-- Model of the JavaScript regex class \w: ASCII letters, digits and
underscore. -/
def isWordChar (c : Char) : Bool :=
  ('a' ≤ c && c ≤ 'z') || ('A' ≤ c && c ≤ 'Z') || ('0' ≤ c && c ≤ '9') || c = '_'

/-- Model of slugify from src/utils/storage.ts: lower-case, delete every
character outside \w, \s and hyphen, replace whitespace runs by a hyphen,
collapse hyphen runs, trim whitespace from the ends. -/
def slugify (l : Str) : Str :=
  trimEnds
    (collapseRuns (fun c => c = '-') '-'
      (collapseRuns isWs '-'
        ((l.map Char.toLower).filter (fun c => isWordChar c || isWs c || c = '-'))))

/-! DOM model for the cheerio-based extractor in src/utils/fetcher.ts.
An element carries the attributes the selectors of the source inspect:
tag name, class list, id and role. -/

inductive Node where
  | text (s : Str)
  | elem (tag : String) (classes : List String) (idAttr : String) (role : String)
      (children : List Node)

mutual

/-- Concatenated text of a node, as cheerio's text() returns it. -/
def nodeText : Node → Str
  | .text s => s
  | .elem _ _ _ _ cs => nodesText cs

/-- Concatenated text of a node list in document order. -/
def nodesText : List Node → Str
  | [] => []
  | n :: ns => nodeText n ++ nodesText ns

end

mutual

/-- Text fragments of a node, one entry per text node, in document order. -/
def nodeTexts : Node → List Str
  | .text s => [s]
  | .elem _ _ _ _ cs => nodesTexts cs

/-- Text fragments of a node list in document order. -/
def nodesTexts : List Node → List Str
  | [] => []
  | n :: ns => nodeTexts n ++ nodesTexts ns

end

/-- Tags removed by the boilerplate selector of extractMainContent. -/
def removedTags : List String :=
  ["script", "style", "nav", "header", "footer", "aside"]

/-- Class names removed by the boilerplate selector of extractMainContent. -/
def removedClasses : List String :=
  ["sidebar", "navigation", "menu", "footer", "header", "ads", "advertisement",
   "cookie-banner", "popup"]

/-- Does the element match the removal selector of extractMainContent? -/
def isBoilerplate : Node → Bool
  | .text _ => false
  | .elem tag classes _ _ _ =>
    removedTags.contains tag || classes.any (fun c => removedClasses.contains c)

mutual

/-- Model of the remove() call of extractMainContent: delete every element
matching the boilerplate selector, keeping everything else in place.  A
removed node yields the empty list, a kept node survives with pruned
children. -/
def pruneNode : Node → List Node
  | .text s => [.text s]
  | .elem t c i r cs =>
    if removedTags.contains t || c.any (fun x => removedClasses.contains x) then []
    else [.elem t c i r (pruneList cs)]

/-- Pruning of a node list, preserving document order. -/
def pruneList : List Node → List Node
  | [] => []
  | n :: ns => pruneNode n ++ pruneList ns

end

/-- The selector forms used by the content-container list of
extractMainContent: tag, role attribute, class and id selectors. -/
inductive Selector where
  | tagSel (t : String)
  | roleSel (r : String)
  | classSel (c : String)
  | idSel (i : String)

/-- Does a node match a selector? -/
def selMatches : Selector → Node → Bool
  | _, .text _ => false
  | .tagSel t, .elem tag _ _ _ _ => tag = t
  | .roleSel r, .elem _ _ _ role _ => role = r
  | .classSel c, .elem _ classes _ _ _ => classes.contains c
  | .idSel i, .elem _ _ idAttr _ _ => idAttr = i

mutual

/-- First node of a subtree matching the selector, in document (pre-)order,
as cheerio's first() returns it. -/
def findFirst (sel : Selector) : Node → Option Node
  | .text _ => none
  | .elem t c i r cs =>
    if selMatches sel (.elem t c i r cs) then some (.elem t c i r cs)
    else findFirstList sel cs

/-- First match of the selector in a node list, in document order. -/
def findFirstList (sel : Selector) : List Node → Option Node
  | [] => none
  | n :: ns =>
    match findFirst sel n with
    | some m => some m
    | none => findFirstList sel ns

end

/-- The prioritized content-container selector list of extractMainContent,
in source order. -/
def mainSelectors : List Selector :=
  [.tagSel "main", .tagSel "article", .roleSel "main", .classSel "content",
   .classSel "main-content", .idSel "content", .idSel "main",
   .classSel "post-content", .classSel "entry-content", .classSel "article-content"]

/-- First element matched by the earliest matching selector of the list, as
the selector loop of extractMainContent finds it. -/
def firstSelectorMatch : List Selector → List Node → Option Node
  | [], _ => none
  | s :: rest, doc =>
    match findFirstList s doc with
    | some n => some n
    | none => firstSelectorMatch rest doc

/-- Raw content string chosen by extractMainContent before whitespace
clean-up: the text of the first selector match, or the whole (pruned) body
text when no selector matched or the matched element's text is empty.  The
argument is the body element of the loaded document. -/
def rawContent (body : Node) : Str :=
  let pruned := pruneNode body
  let content :=
    match firstSelectorMatch mainSelectors pruned with
    | some n => nodeText n
    | none => []
  if content = [] then nodesText pruned else content

/-- Model of extractMainContent from src/utils/fetcher.ts. -/
def extractMainContent (body : Node) : Str :=
  normalizeWs (rawContent body)

/-- Content string the specification describes: the text of the first
matching selector, with the body fallback only when no selector matches.
Stated from the spec's words, to be compared with rawContent. -/
def specClaimedContent (body : Node) : Str :=
  let pruned := pruneNode body
  match firstSelectorMatch mainSelectors pruned with
  | some n => nodeText n
  | none => nodesText pruned

/-- Text fragments contributing to the extracted content, mirroring the
branch structure of rawContent. -/
def contentTexts (body : Node) : List Str :=
  let pruned := pruneNode body
  match firstSelectorMatch mainSelectors pruned with
  | some n => if nodeText n = [] then nodesTexts pruned else nodeTexts n
  | none => nodesTexts pruned

mutual

/-- Text fragments of the document that have an occurrence outside every
removed (boilerplate) element.  Written from the spec's words; it is proved
equal to the fragments surviving pruning. -/
def textsOutsideRemoved : Node → List Str
  | .text s => [s]
  | .elem t c i r cs =>
    if isBoilerplate (.elem t c i r cs) then [] else textsOutsideRemovedList cs

/-- Text fragments of a node list occurring outside removed elements. -/
def textsOutsideRemovedList : List Node → List Str
  | [] => []
  | n :: ns => textsOutsideRemoved n ++ textsOutsideRemovedList ns

end

/-- Document of the extraction scenario: boilerplate navigation and footer
around an article landmark. -/
def wDoc : Node :=
  .elem "body" [] "" ""
    [.elem "nav" [] "" "" [.text "Home About".toList],
     .elem "article" [] "" "" [.text "The post body".toList],
     .elem "footer" [] "" "" [.text "Copyright".toList]]

/-! Model of fetchPage from src/utils/fetcher.ts.  The network is an oracle
mapping the attempt number (1-based) to that attempt's outcome. -/

/-- Retry bound of fetchPage. -/
def MAX_RETRIES : Nat := 3

/-- Base backoff delay of fetchPage, in milliseconds. -/
def RETRY_DELAY : Nat := 1000

/-- Outcome of one axios.get attempt: a body on status < 400, an axios
error carrying the HTTP status when a response arrived with status ≥ 400
(validateStatus rejects those), or a response-less failure (timeout,
network error). -/
inductive AttemptOutcome where
  | success (body : String)
  | httpFailure (status : Nat) (msg : String)
  | netFailure (msg : String)

/-- Message carried by a failed attempt, used for lastError.message. -/
def attemptMsg : AttemptOutcome → String
  | .success _ => ""
  | .httpFailure _ m => m
  | .netFailure m => m

/-- The status classification of fetchPage's catch block: 4xx statuses other
than 429 are thrown immediately instead of retried. -/
def isNonRetryableStatus (s : Nat) : Bool :=
  decide (400 ≤ s) && decide (s < 500) && (s != 429)

/-- Is the outcome a failure fetchPage retries (timeout, network error,
5xx, 429 — anything except a non-retryable client error)? -/
def isRetryableFailure : AttemptOutcome → Bool
  | .success _ => false
  | .httpFailure s _ => !isNonRetryableStatus s
  | .netFailure _ => true

/-- Result of a whole fetchPage call. -/
inductive FetchOutcome where
  | ok (body : String)
  | clientError (url : String) (status : Nat)
  | exhausted (url : String) (lastMsg : String)
deriving DecidableEq

/-- Observable trace of a fetchPage call: its outcome, how many attempts
were made, and the backoff delays slept between attempts. -/
structure FetchRun where
  outcome : FetchOutcome
  attempts : Nat
  delays : List Nat
deriving DecidableEq

/-- Retry loop of fetchPage: attempt is the 1-based loop counter, remaining
the attempts the loop may still make, lastMsg the message of the last
failure seen. -/
def fetchFrom (url : String) (oracle : Nat → AttemptOutcome) (delay : Nat) :
    Nat → Nat → String → FetchRun
  | _, 0, lastMsg => ⟨.exhausted url lastMsg, 0, []⟩
  | attempt, r + 1, _ =>
    match oracle attempt with
    | .success b => ⟨.ok b, 1, []⟩
    | .httpFailure s m =>
      if isNonRetryableStatus s then ⟨.clientError url s, 1, []⟩
      else
        let rest := fetchFrom url oracle delay (attempt + 1) r m
        ⟨rest.outcome, rest.attempts + 1,
          (if attempt < MAX_RETRIES then [delay * attempt] else []) ++ rest.delays⟩
    | .netFailure m =>
      let rest := fetchFrom url oracle delay (attempt + 1) r m
      ⟨rest.outcome, rest.attempts + 1,
        (if attempt < MAX_RETRIES then [delay * attempt] else []) ++ rest.delays⟩

/-- Model of fetchPage: up to MAX_RETRIES attempts starting at attempt 1. -/
def fetchPage (url : String) (oracle : Nat → AttemptOutcome) (delay : Nat) : FetchRun :=
  fetchFrom url oracle delay 1 MAX_RETRIES ""

/-! URL and link extraction.  URL parsing is a platform service; a resolved
URL is a record of the fields the source inspects, and resolution against
the base is an oracle returning none for malformed hrefs. -/

/-- Resolved URL with the fields the source reads. -/
structure UrlObj where
  hostname : String
  pathname : Str
  href : String
deriving DecidableEq

/-- Insertion into a JavaScript Set-like accumulator: keep the first
occurrence, ignore later duplicates. -/
def insertNew (acc : List String) (x : String) : List String :=
  if acc.contains x then acc else acc ++ [x]

/-- Model of spreading a Set built from a list: deduplicate keeping the
first occurrence of each element, preserving order. -/
def dedupFirst (l : List String) : List String := l.foldl insertNew []

/-- Hrefs kept by the extractLinks loop: resolvable against the base and on
the base hostname; missing and malformed hrefs are skipped. -/
def sameHostLinks (base : UrlObj) (resolve : Str → Option UrlObj) :
    List (Option Str) → List String
  | [] => []
  | none :: rest => sameHostLinks base resolve rest
  | some h :: rest =>
    match resolve h with
    | none => sameHostLinks base resolve rest
    | some u =>
      if u.hostname = base.hostname then u.href :: sameHostLinks base resolve rest
      else sameHostLinks base resolve rest

/-- Model of extractLinks from src/utils/fetcher.ts: collect same-host
resolved hrefs in document order, then deduplicate via a Set. -/
def extractLinks (anchors : List (Option Str)) (base : UrlObj)
    (resolve : Str → Option UrlObj) : List String :=
  dedupFirst (sameHostLinks base resolve anchors)

/-- Substring test: does tok occur contiguously inside hay?  Models the
JavaScript includes / literal regex search used by the source. -/
def strContains (tok : Str) : Str → Bool
  | [] => tok.isEmpty
  | c :: rest => tok.isPrefixOf (c :: rest) || strContains tok rest

/-- The denylist regex of extractArticleLinks: does the path contain a
slash followed by one of the non-article segments, case-insensitively? -/
def denyMatch (p : Str) : Bool :=
  ((["/tag", "/category", "/author", "/page", "/search", "/login", "/signup"]).map
      String.toList).any
    (fun tok => strContains tok (p.map Char.toLower))

/-- Accumulator loop of extractArticleLinks over the hrefs produced by the
selector passes, in iteration order: resolve, keep same-host hrefs not seen
yet whose path avoids the denylist and differs from the listing page's
path. -/
def articleLinksLoop (base : UrlObj) (resolve : Str → Option UrlObj) :
    List (Option Str) → List String → List String
  | [], acc => acc
  | none :: rest, acc => articleLinksLoop base resolve rest acc
  | some h :: rest, acc =>
    match resolve h with
    | none => articleLinksLoop base resolve rest acc
    | some u =>
      if u.hostname = base.hostname && !(acc.contains u.href) then
        if !(denyMatch u.pathname) && u.pathname != base.pathname then
          articleLinksLoop base resolve rest (acc ++ [u.href])
        else articleLinksLoop base resolve rest acc
      else articleLinksLoop base resolve rest acc

/-- Model of extractArticleLinks from the Discover stage: run the
accumulator loop over the anchors of all selector passes, then deduplicate
via a Set. -/
def extractArticleLinks (anchors : List (Option Str)) (base : UrlObj)
    (resolve : Str → Option UrlObj) : List String :=
  dedupFirst (articleLinksLoop base resolve anchors [])

/-- Candidate hrefs of extractArticleLinks described as a filter pipeline,
from the spec's words: resolve, keep same-host, drop denylist paths and the
listing page's own path.  Deduplication is applied on top of this stream. -/
def articleCandidates (base : UrlObj) (resolve : Str → Option UrlObj)
    (anchors : List (Option Str)) : List String :=
  (anchors.filterMap id).filterMap (fun h =>
    match resolve h with
    | none => none
    | some u =>
      if u.hostname = base.hostname && !(denyMatch u.pathname)
          && u.pathname != base.pathname then
        some u.href
      else none)

/-- Base URL object of the listing-page scenario used by the witnesses. -/
def wBase : UrlObj := ⟨"example.com", "/blog".toList, "https://example.com/blog"⟩

/-- Resolution oracle of the listing-page scenario: five article links
inside blog-post cards, one tag link, the listing page itself; anything
else is malformed. -/
def wResolve : Str → Option UrlObj := fun h =>
  if h = "/blog/a1".toList then
    some ⟨"example.com", "/blog/a1".toList, "https://example.com/blog/a1"⟩
  else if h = "/blog/a2".toList then
    some ⟨"example.com", "/blog/a2".toList, "https://example.com/blog/a2"⟩
  else if h = "/blog/a3".toList then
    some ⟨"example.com", "/blog/a3".toList, "https://example.com/blog/a3"⟩
  else if h = "/blog/a4".toList then
    some ⟨"example.com", "/blog/a4".toList, "https://example.com/blog/a4"⟩
  else if h = "/blog/a5".toList then
    some ⟨"example.com", "/blog/a5".toList, "https://example.com/blog/a5"⟩
  else if h = "/blog/tag/ai".toList then
    some ⟨"example.com", "/blog/tag/ai".toList, "https://example.com/blog/tag/ai"⟩
  else if h = "/blog".toList then some wBase
  else none

/-- Anchor hrefs of the listing-page scenario, in selector iteration
order, with a duplicate, a missing href and a malformed href. -/
def wAnchors : List (Option Str) :=
  [some "/blog/a1".toList, some "/blog/a2".toList, some "/blog/a3".toList,
   some "/blog/a4".toList, some "/blog/a5".toList, some "/blog/tag/ai".toList,
   some "/blog".toList, some "::bad::".toList, none, some "/blog/a1".toList]

/-! Article validation gate of the Discover stage (fetchArticle in
src/analyzer/blog-discovery.ts).  The metadata and body text arrive from the
extractor; the gate and field computations are modelled here. -/

/-- Persisted inventory record for one discovered article. -/
structure ExistingArticle where
  url : String
  title : Str
  publishedAt : Option Str
  excerpt : Str
  topics : List Str
  wordCount : Nat
  content : Str
deriving DecidableEq

/-- Scanner for content.split(new RegExp whitespace-run): the flag records
whether the scanner is inside a separator run, cur the current piece
(reversed), acc the finished pieces (reversed). -/
def jsSplitWsAux : Str → Bool → Str → List Str → List Str
  | [], _, cur, acc => (cur.reverse :: acc).reverse
  | c :: rest, false, cur, acc =>
    if isWs c then jsSplitWsAux rest true [] (cur.reverse :: acc)
    else jsSplitWsAux rest false (c :: cur) acc
  | c :: rest, true, cur, acc =>
    if isWs c then jsSplitWsAux rest true cur acc
    else jsSplitWsAux rest false [c] acc

/-- Pieces of the whitespace split of a string: split at maximal whitespace
runs, keeping the (possibly empty) leading and trailing pieces, as
JavaScript's String.prototype.split does. -/
def jsSplitWs (l : Str) : List Str := jsSplitWsAux l false [] []

/-- Word count as fetchArticle computes it: content.split(whitespace).length. -/
def jsWordCount (l : Str) : Nat := (jsSplitWs l).length

/-- Fixed topic vocabulary of extractTopicsFromContent. -/
def topicPatterns : List Str :=
  (["ai", "artificial intelligence", "machine learning", "startup", "saas",
    "product", "development", "engineering", "design", "marketing", "growth",
    "security", "compliance", "data", "analytics", "cloud", "mobile", "web"]).map
    String.toList

/-- Model of extractTopicsFromContent: seed with the metadata keywords, then
append each vocabulary word occurring in the lower-cased body, capped at 5. -/
def extractTopicsFromContent (content : Str) (keywords : List Str) : List Str :=
  (topicPatterns.foldl
    (fun topics pat =>
      if strContains pat (content.map Char.toLower) && !(topics.contains pat) then
        topics ++ [pat]
      else topics)
    keywords).take 5

/-- Excerpt of fetchArticle: the meta description when nonempty, otherwise
the first 200 characters with collapsed whitespace, trimmed, plus an
ellipsis. -/
def articleExcerpt (descr content : Str) : Str :=
  if descr = [] then trimEnds (collapseRuns isWs ' ' (content.take 200)) ++ "...".toList
  else descr

/-- Model of fetchArticle's validation gate and record construction.  The
page has already been fetched and run through the extractor; title, descr
and keywords are the extracted metadata, content the extracted body text,
publishedAt the extracted date. -/
def fetchArticle (url : String) (title descr : Str) (keywords : List Str)
    (publishedAt : Option Str) (content : Str) : Option ExistingArticle :=
  if title = [] || content.length < 100 then none
  else
    some
      { url := url
        title := title
        publishedAt := publishedAt
        excerpt := articleExcerpt descr content
        topics := extractTopicsFromContent content keywords
        wordCount := jsWordCount content
        content := content.take 5000 }

/-- One candidate URL's fate in the Discover loop: the fetch or parse threw
(swallowed by the catch), or a page was fetched with the given extracted
fields. -/
inductive CandidateFetch where
  | failed
  | page (url : String) (title descr : Str) (keywords : List Str)
      (publishedAt : Option Str) (content : Str)

/-- One step of the Discover loop: a failed fetch is skipped (the catch
swallows it); a fetched page is appended exactly when fetchArticle accepts
it. -/
def inventoryStep (arts : List ExistingArticle) (c : CandidateFetch) :
    List ExistingArticle :=
  match c with
  | .failed => arts
  | .page url t d k p content =>
    match fetchArticle url t d k p content with
    | some a => arts ++ [a]
    | none => arts

/-- Inventory accumulation of discoverArticles: at most 20 candidates are
processed, in order. -/
def discoverInventory (cands : List CandidateFetch) : List ExistingArticle :=
  (cands.take 20).foldl inventoryStep []

/-- Valid article body used by the gate witnesses (124 characters). -/
def wContent : Str :=
  ("The quick brown fox jumps over the lazy dog again and again and again "
    ++ "and again to make this string long enough for the gate").toList

/-- Body text longer than the 5000-character truncation limit: 5000 letters
followed by a space and one more word. -/
def bigContent : Str := List.replicate 5000 'a' ++ " b".toList

/-! Generate stage model (generateArticles in
src/generator/article-writer.ts).  A brief is reduced to the fields the
stage logic reads; the prompt-only fields are elided.  A run is an effect
trace: one generation invocation per selected brief, then a single write of
the updated plan.  Disk state is the persisted plan; a crash mid-run
executes only a prefix of the trace. -/

/-- Plan entry with the fields the Generate stage logic reads. -/
structure ArticleBrief where
  id : String
  title : Str
  status : String
deriving DecidableEq

/-- Selection of generateArticles: briefs not yet generated, capped at the
configured article count. -/
def articlesToGenerate (plan : List ArticleBrief) (articleCount : Nat) :
    List ArticleBrief :=
  (plan.filter (fun a => a.status != "generated")).take articleCount

/-- In-memory plan at the end of the loop: the first n not-yet-generated
briefs have had their status flipped to generated, everything else is
untouched. -/
def flipFirst : List ArticleBrief → Nat → List ArticleBrief
  | [], _ => []
  | a :: rest, n =>
    if a.status != "generated" then
      match n with
      | 0 => a :: rest
      | m + 1 => { a with status := "generated" } :: flipFirst rest m
    else a :: flipFirst rest n

/-- Effects a Generate run performs, in order, that matter to resumption. -/
inductive GenEffect where
  | invokeGeneration (b : ArticleBrief)
  | writePlan (plan : List ArticleBrief)
deriving DecidableEq

/-- Effect trace of one Generate run on the given persisted plan: one
generation invocation per selected brief, then one write of the flipped
plan (the plan file is written once, after the loop). -/
def runEffects (plan : List ArticleBrief) (count : Nat) : List GenEffect :=
  ((articlesToGenerate plan count).map GenEffect.invokeGeneration) ++
    [GenEffect.writePlan (flipFirst plan count)]

/-- How an effect changes the persisted plan. -/
def applyEffect (disk : List ArticleBrief) : GenEffect → List ArticleBrief
  | .invokeGeneration _ => disk
  | .writePlan p => p

/-- Persisted plan after executing a list of effects. -/
def diskAfter (disk : List ArticleBrief) (effs : List GenEffect) : List ArticleBrief :=
  effs.foldl applyEffect disk

/-- Briefs for which a trace invoked article generation. -/
def invokedBriefs (effs : List GenEffect) : List ArticleBrief :=
  effs.filterMap (fun e =>
    match e with
    | .invokeGeneration b => some b
    | .writePlan _ => none)

/-- Number of already-generated briefs in a plan (the K of the resume
bound). -/
def countGenerated (plan : List ArticleBrief) : Nat :=
  (plan.filter (fun a => a.status == "generated")).length

/-- The three-brief plan of the crash-resume scenario, all still planned. -/
def scenarioPlan : List ArticleBrief :=
  [⟨"b1", "T1".toList, "planned"⟩, ⟨"b2", "T2".toList, "planned"⟩,
   ⟨"b3", "T3".toList, "planned"⟩]

/-! Helper lemmas about the whitespace machinery. -/

theorem mem_collapseRunsAux {p : Char → Bool} {r : Char} :
    ∀ (l : Str) (b : Bool) (c : Char), c ∈ collapseRunsAux p r b l →
      c = r ∨ (p c = false ∧ c ∈ l) := by
  intro l
  induction l with
  | nil => simp [collapseRunsAux]
  | cons d rest ih =>
    intro b c hc
    by_cases hp : p d
    · rcases b with _ | _ <;> simp only [collapseRunsAux, hp, if_true, if_false] at hc
      · rcases List.mem_cons.mp hc with h | h
        · exact .inl h
        · rcases ih true c h with h' | ⟨h1, h2⟩
          · exact .inl h'
          · exact .inr ⟨h1, List.mem_cons_of_mem d h2⟩
      · rcases ih true c hc with h' | ⟨h1, h2⟩
        · exact .inl h'
        · exact .inr ⟨h1, List.mem_cons_of_mem d h2⟩
    · simp only [collapseRunsAux, hp, if_false] at hc
      rcases List.mem_cons.mp hc with h | h
      · subst h
        exact .inr ⟨Bool.not_eq_true _ ▸ hp, List.mem_cons_self _ _⟩
      · rcases ih false c h with h' | ⟨h1, h2⟩
        · exact .inl h'
        · exact .inr ⟨h1, List.mem_cons_of_mem d h2⟩

theorem head_collapseRunsAux_true {p : Char → Bool} {r : Char} :
    ∀ (l : Str), ∀ c ∈ (collapseRunsAux p r true l).head?, p c = false := by
  intro l
  induction l with
  | nil => simp [collapseRunsAux]
  | cons d rest ih =>
    intro c hc
    by_cases hp : p d
    · have he : collapseRunsAux p r true (d :: rest) = collapseRunsAux p r true rest := by
        simp [collapseRunsAux, hp]
      rw [he] at hc
      exact ih c hc
    · have he : collapseRunsAux p r true (d :: rest) = d :: collapseRunsAux p r false rest := by
        simp [collapseRunsAux, hp]
      rw [he] at hc
      simp only [List.head?_cons, Option.mem_def, Option.some.injEq] at hc
      subst hc
      exact Bool.not_eq_true _ ▸ hp

theorem chain_collapseRunsAux {p : Char → Bool} {r : Char} :
    ∀ (l : Str) (b : Bool),
      (collapseRunsAux p r b l).Chain' (fun a c => p a = false ∨ p c = false) := by
  intro l
  induction l with
  | nil => intro b; simp [collapseRunsAux]
  | cons d rest ih =>
    intro b
    by_cases hp : p d
    · rcases b with _ | _ <;> simp only [collapseRunsAux, hp, if_true, if_false]
      · exact List.chain'_cons'.mpr
          ⟨fun c hc => .inr (head_collapseRunsAux_true rest c hc), ih true⟩
      · exact ih true
    · simp only [collapseRunsAux, hp, if_false]
      exact List.chain'_cons'.mpr
        ⟨fun c _ => .inl (Bool.not_eq_true _ ▸ hp), ih false⟩

theorem mem_dropWhile {q : Char → Bool} {l : Str} {c : Char}
    (h : c ∈ l.dropWhile q) : c ∈ l :=
  (List.dropWhile_sublist q (l := l)).subset h

theorem mem_trimEnds {l : Str} {c : Char} (h : c ∈ trimEnds l) : c ∈ l := by
  unfold trimEnds at h
  rw [List.mem_reverse] at h
  have h2 := mem_dropWhile h
  rw [List.mem_reverse] at h2
  exact mem_dropWhile h2

theorem chain_dropWhile {R : Char → Char → Prop} {q : Char → Bool} :
    ∀ {l : Str}, l.Chain' R → (l.dropWhile q).Chain' R := by
  intro l
  induction l with
  | nil => intro h; simp
  | cons d rest ih =>
    intro h
    by_cases hq : q d
    · rw [List.dropWhile_cons_of_pos hq]
      exact ih h.tail
    · rwa [List.dropWhile_cons_of_neg hq]

theorem chain_trimEnds {R : Char → Char → Prop} (hs : ∀ a b, R a b → R b a)
    {l : Str} (hl : l.Chain' R) : (trimEnds l).Chain' R := by
  unfold trimEnds
  rw [List.chain'_reverse]
  refine List.Chain'.imp (fun a b h => hs a b h) ?_
  apply chain_dropWhile
  rw [List.chain'_reverse]
  exact List.Chain'.imp (fun a b h => hs a b h) (chain_dropWhile hl)

theorem head_dropWhile {q : Char → Bool} :
    ∀ (l : Str), ∀ c ∈ (l.dropWhile q).head?, q c = false := by
  intro l
  induction l with
  | nil => simp
  | cons d rest ih =>
    intro c hc
    by_cases hq : q d
    · rw [List.dropWhile_cons_of_pos hq] at hc
      exact ih c hc
    · rw [List.dropWhile_cons_of_neg hq] at hc
      simp only [List.head?_cons, Option.mem_def, Option.some.injEq] at hc
      subst hc
      exact Bool.not_eq_true _ ▸ hq

theorem getLast_dropWhile {q : Char → Bool} :
    ∀ (l : Str), l.dropWhile q ≠ [] → (l.dropWhile q).getLast? = l.getLast? := by
  intro l
  induction l with
  | nil => simp
  | cons d rest ih =>
    intro hne
    by_cases hq : q d
    · rw [List.dropWhile_cons_of_pos hq] at hne ⊢
      have hrest : rest ≠ [] := by
        intro h
        subst h
        simp at hne
      rw [ih hne]
      rcases rest with _ | ⟨e, rest'⟩
      · simp at hrest
      · rw [List.getLast?_cons_cons]
    · rw [List.dropWhile_cons_of_neg hq]

theorem head_trimEnds {l : Str} : ∀ c ∈ (trimEnds l).head?, isWs c = false := by
  intro c hc
  unfold trimEnds at hc
  rw [List.head?_reverse] at hc
  rcases hZ : (l.dropWhile isWs).reverse.dropWhile isWs with _ | ⟨e, Z'⟩
  · rw [hZ] at hc
    simp at hc
  · rw [hZ] at hc
    rw [← hZ] at hc
    rw [getLast_dropWhile _ (by rw [hZ]; simp), List.getLast?_reverse] at hc
    exact head_dropWhile l c hc

theorem getLast_trimEnds {l : Str} : ∀ c ∈ (trimEnds l).getLast?, isWs c = false := by
  intro c hc
  unfold trimEnds at hc
  rw [List.getLast?_reverse] at hc
  exact head_dropWhile _ c hc

theorem collapseBlankAux_none_id :
    ∀ {l : Str}, (∀ c ∈ l, ¬c = '\n') → collapseBlankAux l none = l := by
  intro l
  induction l with
  | nil => intro; rfl
  | cons d rest ih =>
    intro h
    have hd : ¬d = '\n' := h d (List.mem_cons_self _ _)
    simp only [collapseBlankAux, if_neg hd]
    rw [ih (fun c hc => h c (List.mem_cons_of_mem d hc))]

theorem no_newline_collapseRuns_ws {l : Str} : '\n' ∉ collapseRuns isWs ' ' l := by
  intro h
  rcases mem_collapseRunsAux l false '\n' h with h' | ⟨h1, _⟩
  · exact absurd h' (by decide)
  · exact absurd h1 (by decide)

theorem normalizeWs_spec (l : Str) :
    (∀ c ∈ normalizeWs l, isWs c = true → c = ' ')
    ∧ '\n' ∉ normalizeWs l
    ∧ (normalizeWs l).Chain' (fun a b => isWs a = false ∨ isWs b = false)
    ∧ (∀ c ∈ (normalizeWs l).head?, isWs c = false)
    ∧ (∀ c ∈ (normalizeWs l).getLast?, isWs c = false) := by
  have hid : collapseBlank (collapseRuns isWs ' ' l) = collapseRuns isWs ' ' l := by
    unfold collapseBlank
    exact collapseBlankAux_none_id (fun c hc h => by
      subst h
      exact no_newline_collapseRuns_ws hc)
  have hnw : normalizeWs l = trimEnds (collapseRuns isWs ' ' l) := by
    unfold normalizeWs
    rw [hid]
  refine ⟨?_, ?_, ?_, ?_, ?_⟩
  · intro c hc hws
    rw [hnw] at hc
    rcases mem_collapseRunsAux l false c (mem_trimEnds hc) with h | ⟨h1, _⟩
    · exact h
    · rw [hws] at h1
      cases h1
  · intro h
    rw [hnw] at h
    exact no_newline_collapseRuns_ws (mem_trimEnds h)
  · rw [hnw]
    exact chain_trimEnds (fun a b h => h.symm) (chain_collapseRunsAux l false)
  · rw [hnw]
    exact head_trimEnds
  · rw [hnw]
    exact getLast_trimEnds

/-! Character-level facts needed for the slugify claim. -/

theorem charToNat_ofNat {n : Nat} (h : n < 0xd800) : (Char.ofNat n).toNat = n := by
  rw [Char.ofNat, dif_pos (Or.inl h)]
  simp [Char.ofNatAux, Char.toNat, UInt32.ofNat', UInt32.toNat]

theorem char_le_iff_toNat_le {a c : Char} : a ≤ c ↔ a.toNat ≤ c.toNat := by
  simp [Char.le_def, UInt32.le_def, BitVec.le_def, Char.toNat, UInt32.toNat]

theorem toLower_not_upper (d : Char) :
    ¬(65 ≤ (Char.toLower d).toNat ∧ (Char.toLower d).toNat ≤ 90) := by
  unfold Char.toLower
  by_cases h : 65 ≤ d.toNat ∧ d.toNat ≤ 90
  · rw [if_pos ?_]
    · have he : (Char.ofNat (d.toNat + 32)).toNat = d.toNat + 32 :=
        charToNat_ofNat (by omega)
      omega
    · simp [ge_iff_le]
      omega
  · rw [if_neg ?_]
    · omega
    · simp [ge_iff_le]
      omega

/-- C10: for every input string, slugify returns a string whose characters
are all lowercase ASCII letters, digits, underscore or hyphen (in
particular no whitespace and no path separator), with no two consecutive
hyphens — so article output directory names are single safe path
segments. -/
theorem slugify_safe_segment (l : Str) :
    (∀ c ∈ slugify l,
        ('a' ≤ c ∧ c ≤ 'z') ∨ ('0' ≤ c ∧ c ≤ '9') ∨ c = '_' ∨ c = '-')
    ∧ (∀ c ∈ slugify l, isWs c = false)
    ∧ '/' ∉ slugify l
    ∧ (slugify l).Chain' (fun a b => ¬(a = '-' ∧ b = '-')) := by
  have hmem : ∀ c ∈ slugify l,
      c = '-' ∨ (isWs c = false ∧ c ≠ '-' ∧ isWordChar c = true ∧ ∃ d, Char.toLower d = c) := by
    intro c hc
    have hX := mem_trimEnds hc
    rcases mem_collapseRunsAux _ false c hX with h | ⟨hnd, hY⟩
    · exact .inl h
    · rcases mem_collapseRunsAux _ false c hY with h | ⟨hnw, hZ⟩
      · exact .inl h
      · rcases List.mem_filter.mp hZ with ⟨hmap, hpred⟩
        have hne : c ≠ '-' := by
          intro h
          rw [h] at hnd
          simp at hnd
        have hw : isWordChar c = true := by
          simp only [Bool.or_eq_true, decide_eq_true_eq] at hpred
          rcases hpred with (h | h) | h
          · exact h
          · rw [h] at hnw
            cases hnw
          · exact absurd h hne
        rcases List.mem_map.mp hmap with ⟨d, _, hd⟩
        exact .inr ⟨hnw, hne, hw, d, hd⟩
  have hset : ∀ c ∈ slugify l,
      ('a' ≤ c ∧ c ≤ 'z') ∨ ('0' ≤ c ∧ c ≤ '9') ∨ c = '_' ∨ c = '-' := by
    intro c hc
    rcases hmem c hc with h | ⟨_, _, hw, d, hd⟩
    · exact .inr (.inr (.inr h))
    · simp only [isWordChar, Bool.or_eq_true, Bool.and_eq_true, decide_eq_true_eq] at hw
      rcases hw with ((h | h) | h) | h
      · exact .inl h
      · exfalso
        apply toLower_not_upper d
        rw [hd]
        constructor
        · have := char_le_iff_toNat_le.mp h.1
          simpa using this
        · have := char_le_iff_toNat_le.mp h.2
          simpa using this
      · exact .inr (.inl h)
      · exact .inr (.inr (.inl h))
  refine ⟨hset, ?_, ?_, ?_⟩
  · intro c hc
    rcases hmem c hc with h | ⟨h, _⟩
    · rw [h]
      decide
    · exact h
  · intro h
    rcases hset '/' h with h' | h' | h' | h' <;> revert h' <;> decide
  · apply chain_trimEnds (fun a b h hab => h ⟨hab.2, hab.1⟩)
    refine List.Chain'.imp ?_ (chain_collapseRunsAux _ false)
    intro a b h hab
    rcases h with h | h
    · rw [hab.1] at h
      simp at h
    · rw [hab.2] at h
      simp at h

/-- Witness for slugify_safe_segment at a concrete title. -/
theorem slugify_safe_segment_witness :
    'm' ∈ slugify "My First Post!".toList
    ∧ (('a' ≤ 'm' ∧ 'm' ≤ 'z') ∨ ('0' ≤ 'm' ∧ 'm' ≤ '9') ∨ 'm' = '_' ∨ 'm' = '-')
    ∧ isWs 'm' = false
    ∧ '/' ∉ slugify "My First Post!".toList :=
  ⟨by decide,
   (slugify_safe_segment ("My First Post!".toList)).1 'm' (by decide),
   (slugify_safe_segment ("My First Post!".toList)).2.1 'm' (by decide),
   (slugify_safe_segment ("My First Post!".toList)).2.2.1⟩

/-- C8: the text extractMainContent returns has whitespace runs collapsed
to single spaces (every whitespace character of the output is a space and
no two adjacent characters are both whitespace), contains no newline at
all (hence no two consecutive blank lines), and is trimmed at both
ends. -/
theorem extractMainContent_whitespace (body : Node) :
    (∀ c ∈ extractMainContent body, isWs c = true → c = ' ')
    ∧ '\n' ∉ extractMainContent body
    ∧ (extractMainContent body).Chain' (fun a b => isWs a = false ∨ isWs b = false)
    ∧ (∀ c ∈ (extractMainContent body).head?, isWs c = false)
    ∧ (∀ c ∈ (extractMainContent body).getLast?, isWs c = false) :=
  normalizeWs_spec (rawContent body)

/-- Witness for extractMainContent_whitespace at a concrete document. -/
theorem extractMainContent_whitespace_witness :
    'a' ∈ (extractMainContent
        (Node.elem "body" [] "" "" [Node.text "  a\n\nb ".toList])).head?
    ∧ isWs 'a' = false
    ∧ '\n' ∉ extractMainContent
        (Node.elem "body" [] "" "" [Node.text "  a\n\nb ".toList]) :=
  ⟨by decide,
   (extractMainContent_whitespace
     (Node.elem "body" [] "" "" [Node.text "  a\n\nb ".toList])).2.2.2.1 'a' (by decide),
   (extractMainContent_whitespace
     (Node.elem "body" [] "" "" [Node.text "  a\n\nb ".toList])).2.1⟩

/-! Generate-stage lemmas and claims about crash-resume behaviour. -/

theorem foldl_applyEffect_invokes :
    ∀ (bs : List ArticleBrief) (disk : List ArticleBrief),
      (bs.map GenEffect.invokeGeneration).foldl applyEffect disk = disk := by
  intro bs
  induction bs with
  | nil => intro disk; rfl
  | cons b rest ih => intro disk; exact ih disk

theorem diskAfter_runEffects (plan : List ArticleBrief) (count : Nat) :
    diskAfter plan (runEffects plan count) = flipFirst plan count := by
  unfold diskAfter runEffects
  rw [List.foldl_append, foldl_applyEffect_invokes]
  rfl

theorem invokedBriefs_map_invoke :
    ∀ bs : List ArticleBrief, invokedBriefs (bs.map GenEffect.invokeGeneration) = bs := by
  intro bs
  induction bs with
  | nil => rfl
  | cons b rest ih =>
    unfold invokedBriefs at ih ⊢
    simp only [List.map_cons, List.filterMap_cons]
    rw [ih]

theorem invokedBriefs_runEffects (plan : List ArticleBrief) (count : Nat) :
    invokedBriefs (runEffects plan count) = articlesToGenerate plan count := by
  unfold invokedBriefs runEffects
  rw [List.filterMap_append]
  have h1 := invokedBriefs_map_invoke (articlesToGenerate plan count)
  unfold invokedBriefs at h1
  rw [h1]
  simp

theorem diskAfter_take_invokes (plan : List ArticleBrief) (count k : Nat)
    (hk : k ≤ (articlesToGenerate plan count).length) :
    diskAfter plan ((runEffects plan count).take k) = plan := by
  unfold runEffects diskAfter
  rw [List.take_append_of_le_length (by simpa using hk), ← List.map_take]
  exact foldl_applyEffect_invokes _ _

theorem filter_flipFirst :
    ∀ (plan : List ArticleBrief) (n : Nat),
      (flipFirst plan n).filter (fun a => a.status != "generated")
        = (plan.filter (fun a => a.status != "generated")).drop n := by
  intro plan
  induction plan with
  | nil => intro n; simp [flipFirst]
  | cons a rest ih =>
    intro n
    by_cases ha : a.status = "generated"
    · have hb : (a.status != "generated") = false := by simp [ha]
      have he : flipFirst (a :: rest) n = a :: flipFirst rest n := by
        simp [flipFirst, hb]
      rw [he]
      simp only [List.filter_cons, hb, Bool.false_eq_true, if_false]
      exact ih n
    · have hb : (a.status != "generated") = true := by simp [ha]
      cases n with
      | zero =>
        have he : flipFirst (a :: rest) 0 = a :: rest := by
          simp [flipFirst, hb]
        rw [he, List.drop_zero]
      | succ m =>
        have he : flipFirst (a :: rest) (m + 1)
            = { a with status := "generated" } :: flipFirst rest m := by
          simp [flipFirst, hb]
        rw [he]
        simp only [List.filter_cons, hb, if_true]
        have hg : (({ a with status := "generated" } : ArticleBrief).status
            != "generated") = false := by simp
        simp only [hg, Bool.false_eq_true, if_false, List.drop_succ_cons]
        exact ih m

theorem length_filter_nonGen (plan : List ArticleBrief) :
    (plan.filter (fun a => a.status != "generated")).length + countGenerated plan
      = plan.length := by
  unfold countGenerated
  induction plan with
  | nil => rfl
  | cons a rest ih =>
    by_cases ha : a.status = "generated"
    · simp only [List.filter_cons, ha]
      simp only [show (("generated" : String) != "generated") = false by simp,
        Bool.false_eq_true, if_false, show (("generated" : String) == "generated") = true by simp,
        if_true, List.length_cons]
      omega
    · have h1 : (a.status != "generated") = true := by simp [ha]
      have h2 : (a.status == "generated") = false := by simp [ha]
      simp only [List.filter_cons, h1, if_true, h2, Bool.false_eq_true, if_false,
        List.length_cons]
      omega

/-- C2: one Generate run invokes article generation for at most
min(configuredCount, N - K) briefs, where N is the number of briefs of the
persisted plan and K the number already generated, and never invokes
generation for a brief whose status is already generated. -/
theorem generate_resume_bound (plan : List ArticleBrief) (count : Nat) :
    (invokedBriefs (runEffects plan count)).length
      ≤ min count (plan.length - countGenerated plan)
    ∧ ∀ b ∈ invokedBriefs (runEffects plan count), b.status ≠ "generated" := by
  rw [invokedBriefs_runEffects]
  constructor
  · unfold articlesToGenerate
    rw [List.length_take]
    have h := length_filter_nonGen plan
    have he : (plan.filter (fun a => a.status != "generated")).length
        = plan.length - countGenerated plan := by omega
    rw [he]
  · intro b hb
    unfold articlesToGenerate at hb
    have hb' : b ∈ plan.filter (fun a => a.status != "generated") :=
      (List.take_sublist _ _).subset hb
    have hf := List.of_mem_filter hb'
    simpa using hf

/-- Witness for generate_resume_bound on the scenario plan. -/
theorem generate_resume_bound_witness :
    (invokedBriefs (runEffects scenarioPlan 5)).length
      ≤ min 5 (scenarioPlan.length - countGenerated scenarioPlan)
    ∧ (⟨"b1", "T1".toList, "planned"⟩ : ArticleBrief).status ≠ "generated" :=
  ⟨(generate_resume_bound scenarioPlan 5).1,
   (generate_resume_bound scenarioPlan 5).2 ⟨"b1", "T1".toList, "planned"⟩ (by decide)⟩

/-- C1 counterexample: on a 3-brief plan, a run that crashes after
generating briefs 1 and 2 (a proper prefix of its effect trace, which
never reaches the final plan write) leaves the persisted plan unchanged,
so the second run does not invoke generation only for brief 3. -/
theorem generate_crash_resume_counterexample :
    invokedBriefs ((runEffects scenarioPlan 3).take 2)
      = [⟨"b1", "T1".toList, "planned"⟩, ⟨"b2", "T2".toList, "planned"⟩]
    ∧ diskAfter scenarioPlan ((runEffects scenarioPlan 3).take 2) = scenarioPlan
    ∧ invokedBriefs
        (runEffects (diskAfter scenarioPlan ((runEffects scenarioPlan 3).take 2)) 3)
      ≠ [⟨"b3", "T3".toList, "planned"⟩] := by
  decide

/-- C1 amended: the updated plan with flipped statuses is written once,
after the generation loop.  A run that completes persists exactly the
flipped plan, and a subsequent run invokes generation only for briefs
beyond the completed ones; but a crash mid-run (a prefix of the effect
trace stopping at or before the last generation, hence before the plan
write) leaves the persisted plan unchanged, so the next run re-invokes
generation for the crashed run's completed briefs. -/
theorem generate_resume_amended (plan : List ArticleBrief) (count nextCount k : Nat)
    (hk : k ≤ (articlesToGenerate plan count).length) :
    diskAfter plan (runEffects plan count) = flipFirst plan count
    ∧ invokedBriefs (runEffects (flipFirst plan count) nextCount)
        = ((plan.filter (fun a => a.status != "generated")).drop count).take nextCount
    ∧ diskAfter plan ((runEffects plan count).take k) = plan := by
  refine ⟨diskAfter_runEffects plan count, ?_, diskAfter_take_invokes plan count k hk⟩
  rw [invokedBriefs_runEffects]
  unfold articlesToGenerate
  rw [filter_flipFirst]

/-- Witness for generate_resume_amended on the scenario plan. -/
theorem generate_resume_amended_witness :
    1 ≤ (articlesToGenerate scenarioPlan 2).length
    ∧ (diskAfter scenarioPlan (runEffects scenarioPlan 2) = flipFirst scenarioPlan 2
       ∧ invokedBriefs (runEffects (flipFirst scenarioPlan 2) 3)
           = ((scenarioPlan.filter (fun a => a.status != "generated")).drop 2).take 3
       ∧ diskAfter scenarioPlan ((runEffects scenarioPlan 2).take 1) = scenarioPlan) :=
  ⟨by decide, generate_resume_amended scenarioPlan 2 3 1 (by decide)⟩

/-! Fetcher retry classification. -/

theorem fetchFrom_attempts_le (url : String) (oracle : Nat → AttemptOutcome)
    (delay : Nat) :
    ∀ (r attempt : Nat) (lm : String),
      (fetchFrom url oracle delay attempt r lm).attempts ≤ r := by
  intro r
  induction r with
  | zero => intro attempt lm; simp [fetchFrom]
  | succ n ih =>
    intro attempt lm
    cases h : oracle attempt with
    | success b => simp [fetchFrom, h]
    | httpFailure s m =>
      by_cases hs : isNonRetryableStatus s
      · simp [fetchFrom, h, hs]
      · have hle := ih (attempt + 1) m
        simp [fetchFrom, h, hs]
        omega
    | netFailure m =>
      have hle := ih (attempt + 1) m
      simp [fetchFrom, h]
      omega

/-- C3: fetchPage makes at most 3 attempts; a first-attempt HTTP status in
[400,500) other than 429 fails immediately after exactly 1 attempt with no
backoff sleep; when all three attempts fail retryably (timeout, 5xx, 429,
network error) it sleeps attempt times the base delay between attempts and
fails after exactly 3 attempts with an error carrying the URL and the last
underlying error message. -/
theorem fetchPage_retry_classification (url : String) (oracle : Nat → AttemptOutcome)
    (delay : Nat) :
    (fetchPage url oracle delay).attempts ≤ 3
    ∧ (∀ s m, oracle 1 = .httpFailure s m → isNonRetryableStatus s = true →
        fetchPage url oracle delay = ⟨.clientError url s, 1, []⟩)
    ∧ ((∀ i, 1 ≤ i → i ≤ 3 → isRetryableFailure (oracle i) = true) →
        fetchPage url oracle delay
          = ⟨.exhausted url (attemptMsg (oracle 3)), 3, [delay * 1, delay * 2]⟩) := by
  refine ⟨?_, ?_, ?_⟩
  · exact fetchFrom_attempts_le url oracle delay 3 1 ""
  · intro s m h1 hs
    simp [fetchPage, MAX_RETRIES, fetchFrom, h1, hs]
  · intro hr
    have r1 := hr 1 (by omega) (by omega)
    have r2 := hr 2 (by omega) (by omega)
    have r3 := hr 3 (by omega) (by omega)
    cases h1 : oracle 1 with
    | success b => rw [h1] at r1; simp [isRetryableFailure] at r1
    | httpFailure s1 m1 =>
      rw [h1] at r1
      simp only [isRetryableFailure, Bool.not_eq_true'] at r1
      cases h2 : oracle 2 with
      | success b => rw [h2] at r2; simp [isRetryableFailure] at r2
      | httpFailure s2 m2 =>
        rw [h2] at r2
        simp only [isRetryableFailure, Bool.not_eq_true'] at r2
        cases h3 : oracle 3 with
        | success b => rw [h3] at r3; simp [isRetryableFailure] at r3
        | httpFailure s3 m3 =>
          rw [h3] at r3
          simp only [isRetryableFailure, Bool.not_eq_true'] at r3
          simp [fetchPage, fetchFrom, MAX_RETRIES, h1, h2, h3, r1, r2, r3, attemptMsg]
        | netFailure m3 =>
          simp [fetchPage, fetchFrom, MAX_RETRIES, h1, h2, h3, r1, r2, attemptMsg]
      | netFailure m2 =>
        cases h3 : oracle 3 with
        | success b => rw [h3] at r3; simp [isRetryableFailure] at r3
        | httpFailure s3 m3 =>
          rw [h3] at r3
          simp only [isRetryableFailure, Bool.not_eq_true'] at r3
          simp [fetchPage, fetchFrom, MAX_RETRIES, h1, h2, h3, r1, r3, attemptMsg]
        | netFailure m3 =>
          simp [fetchPage, fetchFrom, MAX_RETRIES, h1, h2, h3, r1, attemptMsg]
    | netFailure m1 =>
      cases h2 : oracle 2 with
      | success b => rw [h2] at r2; simp [isRetryableFailure] at r2
      | httpFailure s2 m2 =>
        rw [h2] at r2
        simp only [isRetryableFailure, Bool.not_eq_true'] at r2
        cases h3 : oracle 3 with
        | success b => rw [h3] at r3; simp [isRetryableFailure] at r3
        | httpFailure s3 m3 =>
          rw [h3] at r3
          simp only [isRetryableFailure, Bool.not_eq_true'] at r3
          simp [fetchPage, fetchFrom, MAX_RETRIES, h1, h2, h3, r2, r3, attemptMsg]
        | netFailure m3 =>
          simp [fetchPage, fetchFrom, MAX_RETRIES, h1, h2, h3, r2, attemptMsg]
      | netFailure m2 =>
        cases h3 : oracle 3 with
        | success b => rw [h3] at r3; simp [isRetryableFailure] at r3
        | httpFailure s3 m3 =>
          rw [h3] at r3
          simp only [isRetryableFailure, Bool.not_eq_true'] at r3
          simp [fetchPage, fetchFrom, MAX_RETRIES, h1, h2, h3, r3, attemptMsg]
        | netFailure m3 =>
          simp [fetchPage, fetchFrom, MAX_RETRIES, h1, h2, h3, attemptMsg]

/-- Witness for fetchPage_retry_classification: a 404 on the first attempt
fails immediately, and three consecutive 503 responses exhaust exactly 3
attempts with backoff delays of base and twice the base. -/
theorem fetchPage_retry_classification_witness :
    fetchPage "https://example.com" (fun _ => .httpFailure 404 "not found") 1000
      = ⟨.clientError "https://example.com" 404, 1, []⟩
    ∧ fetchPage "https://example.com" (fun _ => .httpFailure 503 "unavailable") 1000
      = ⟨.exhausted "https://example.com"
          (attemptMsg ((fun _ => AttemptOutcome.httpFailure 503 "unavailable") 3)),
          3, [1000 * 1, 1000 * 2]⟩ :=
  ⟨(fetchPage_retry_classification "https://example.com"
      (fun _ => .httpFailure 404 "not found") 1000).2.1 404 "not found" rfl (by decide),
   (fetchPage_retry_classification "https://example.com"
      (fun _ => .httpFailure 503 "unavailable") 1000).2.2
      (fun i _ _ => by decide)⟩

/-! Lemmas about Set-style deduplication and the link extractors. -/

theorem listContains_iff_mem {acc : List String} {y : String} :
    acc.contains y = true ↔ y ∈ acc := by
  induction acc with
  | nil => simp
  | cons a rest ih => simp [List.contains_cons, ih]

theorem mem_insertNew {acc : List String} {y x : String} :
    x ∈ insertNew acc y ↔ x ∈ acc ∨ x = y := by
  unfold insertNew
  by_cases h : acc.contains y
  · rw [if_pos h]
    have hy : y ∈ acc := listContains_iff_mem.mp h
    constructor
    · exact fun hx => .inl hx
    · intro hx
      rcases hx with hx | hx
      · exact hx
      · rw [hx]
        exact hy
  · rw [if_neg h]
    simp

theorem mem_foldl_insertNew :
    ∀ (l acc : List String) (x : String),
      x ∈ l.foldl insertNew acc ↔ x ∈ acc ∨ x ∈ l := by
  intro l
  induction l with
  | nil => simp
  | cons y rest ih =>
    intro acc x
    rw [List.foldl_cons, ih, mem_insertNew]
    constructor
    · rintro ((h | h) | h)
      · exact .inl h
      · exact .inr (by rw [h]; exact List.mem_cons_self _ _)
      · exact .inr (List.mem_cons_of_mem _ h)
    · rintro (h | h)
      · exact .inl (.inl h)
      · rcases List.mem_cons.mp h with h | h
        · exact .inl (.inr h)
        · exact .inr h

theorem nodup_foldl_insertNew :
    ∀ (l acc : List String), acc.Nodup → (l.foldl insertNew acc).Nodup := by
  intro l
  induction l with
  | nil => intro acc h; simpa using h
  | cons y rest ih =>
    intro acc h
    rw [List.foldl_cons]
    apply ih
    unfold insertNew
    by_cases hc : acc.contains y
    · rwa [if_pos hc]
    · rw [if_neg hc]
      have hy : y ∉ acc := by
        intro hmem
        exact hc (listContains_iff_mem.mpr hmem)
      simp [List.nodup_append, h, hy]

theorem foldl_insertNew_of_nodup :
    ∀ (l acc : List String), (acc ++ l).Nodup → l.foldl insertNew acc = acc ++ l := by
  intro l
  induction l with
  | nil => intro acc _; simp
  | cons y rest ih =>
    intro acc h
    have hy : y ∉ acc := by
      intro hmem
      have := List.disjoint_of_nodup_append h
      exact this hmem (List.mem_cons_self _ _)
    rw [List.foldl_cons]
    have hins : insertNew acc y = acc ++ [y] := by
      unfold insertNew
      rw [if_neg (fun hc => hy (listContains_iff_mem.mp hc))]
    rw [hins]
    have h' : ((acc ++ [y]) ++ rest).Nodup := by
      simpa [List.append_assoc] using h
    rw [ih (acc ++ [y]) h']
    simp

theorem mem_dedupFirst {l : List String} {x : String} :
    x ∈ dedupFirst l ↔ x ∈ l := by
  unfold dedupFirst
  rw [mem_foldl_insertNew]
  simp

theorem nodup_dedupFirst (l : List String) : (dedupFirst l).Nodup :=
  nodup_foldl_insertNew l [] List.nodup_nil

theorem dedupFirst_eq_self {l : List String} (h : l.Nodup) : dedupFirst l = l := by
  unfold dedupFirst
  simpa using foldl_insertNew_of_nodup l [] (by simpa using h)

theorem mem_sameHostLinks {base : UrlObj} {resolve : Str → Option UrlObj} :
    ∀ (anchors : List (Option Str)) (x : String),
      x ∈ sameHostLinks base resolve anchors →
        ∃ h u, some h ∈ anchors ∧ resolve h = some u
          ∧ u.hostname = base.hostname ∧ x = u.href := by
  intro anchors
  induction anchors with
  | nil => simp [sameHostLinks]
  | cons a rest ih =>
    intro x hx
    cases a with
    | none =>
      rcases ih x hx with ⟨h, u, hmem, hres, hh, hx'⟩
      exact ⟨h, u, List.mem_cons_of_mem _ hmem, hres, hh, hx'⟩
    | some hr =>
      cases hres : resolve hr with
      | none =>
        rw [show sameHostLinks base resolve (some hr :: rest)
            = sameHostLinks base resolve rest by simp [sameHostLinks, hres]] at hx
        rcases ih x hx with ⟨h, u, hmem, hres', hh, hx'⟩
        exact ⟨h, u, List.mem_cons_of_mem _ hmem, hres', hh, hx'⟩
      | some u =>
        by_cases hh : u.hostname = base.hostname
        · rw [show sameHostLinks base resolve (some hr :: rest)
              = u.href :: sameHostLinks base resolve rest by
                simp [sameHostLinks, hres, hh]] at hx
          rcases List.mem_cons.mp hx with hx' | hx'
          · exact ⟨hr, u, List.mem_cons_self _ _, hres, hh, hx'⟩
          · rcases ih x hx' with ⟨h, u', hmem, hres', hh', hx''⟩
            exact ⟨h, u', List.mem_cons_of_mem _ hmem, hres', hh', hx''⟩
        · rw [show sameHostLinks base resolve (some hr :: rest)
              = sameHostLinks base resolve rest by simp [sameHostLinks, hres, hh]] at hx
          rcases ih x hx with ⟨h, u', hmem, hres', hh', hx''⟩
          exact ⟨h, u', List.mem_cons_of_mem _ hmem, hres', hh', hx''⟩

theorem sameHostLinks_filter_resolvable {base : UrlObj} {resolve : Str → Option UrlObj} :
    ∀ anchors : List (Option Str),
      sameHostLinks base resolve (anchors.filter (fun a => (a.bind resolve).isSome))
        = sameHostLinks base resolve anchors := by
  intro anchors
  induction anchors with
  | nil => rfl
  | cons a rest ih =>
    cases a with
    | none =>
      rw [show (List.filter (fun a => (a.bind resolve).isSome) (none :: rest))
          = List.filter (fun a => (a.bind resolve).isSome) rest by simp]
      rw [ih]
      rfl
    | some hr =>
      cases hres : resolve hr with
      | none =>
        rw [show (List.filter (fun a => (a.bind resolve).isSome) (some hr :: rest))
            = List.filter (fun a => (a.bind resolve).isSome) rest by
              simp [List.filter_cons, hres]]
        rw [ih]
        simp [sameHostLinks, hres]
      | some u =>
        rw [show (List.filter (fun a => (a.bind resolve).isSome) (some hr :: rest))
            = some hr :: List.filter (fun a => (a.bind resolve).isSome) rest by
              simp [List.filter_cons, hres]]
        simp only [sameHostLinks, hres]
        rw [ih]

/-- C7: extractLinks returns only URLs whose resolved hostname equals the
base hostname, returns no duplicate resolved absolute URL, and silently
skips anchors whose href is missing or fails to resolve (removing them
from the input changes nothing). -/
theorem extractLinks_spec (anchors : List (Option Str)) (base : UrlObj)
    (resolve : Str → Option UrlObj) :
    (∀ x ∈ extractLinks anchors base resolve,
        ∃ h u, some h ∈ anchors ∧ resolve h = some u
          ∧ u.hostname = base.hostname ∧ x = u.href)
    ∧ (extractLinks anchors base resolve).Nodup
    ∧ extractLinks (anchors.filter (fun a => (a.bind resolve).isSome)) base resolve
        = extractLinks anchors base resolve := by
  refine ⟨?_, nodup_dedupFirst _, ?_⟩
  · intro x hx
    unfold extractLinks at hx
    exact mem_sameHostLinks anchors x (mem_dedupFirst.mp hx)
  · unfold extractLinks
    rw [sameHostLinks_filter_resolvable]

/-- Witness for extractLinks_spec on the listing-page scenario. -/
theorem extractLinks_spec_witness :
    extractLinks wAnchors wBase wResolve
      = ["https://example.com/blog/a1", "https://example.com/blog/a2",
         "https://example.com/blog/a3", "https://example.com/blog/a4",
         "https://example.com/blog/a5", "https://example.com/blog/tag/ai",
         "https://example.com/blog"]
    ∧ (∃ h u, some h ∈ wAnchors ∧ wResolve h = some u
        ∧ u.hostname = wBase.hostname ∧ "https://example.com/blog/a2" = u.href)
    ∧ extractLinks (wAnchors.filter (fun a => (a.bind wResolve).isSome)) wBase wResolve
        = extractLinks wAnchors wBase wResolve :=
  ⟨by decide,
   (extractLinks_spec wAnchors wBase wResolve).1 "https://example.com/blog/a2" (by decide),
   (extractLinks_spec wAnchors wBase wResolve).2.2⟩

theorem articleLinksLoop_eq {base : UrlObj} {resolve : Str → Option UrlObj} :
    ∀ (anchors : List (Option Str)) (acc : List String),
      articleLinksLoop base resolve anchors acc
        = (articleCandidates base resolve anchors).foldl insertNew acc := by
  intro anchors
  induction anchors with
  | nil => intro acc; rfl
  | cons a rest ih =>
    intro acc
    cases a with
    | none =>
      rw [show articleLinksLoop base resolve (none :: rest) acc
          = articleLinksLoop base resolve rest acc from rfl]
      rw [ih]
      rw [show articleCandidates base resolve (none :: rest)
          = articleCandidates base resolve rest by
        unfold articleCandidates
        simp]
    | some h =>
      cases hr : resolve h with
      | none =>
        have hl : articleLinksLoop base resolve (some h :: rest) acc
            = articleLinksLoop base resolve rest acc := by
          simp [articleLinksLoop, hr]
        have hcand : articleCandidates base resolve (some h :: rest)
            = articleCandidates base resolve rest := by
          unfold articleCandidates
          simp [List.filterMap_cons, hr]
        rw [hl, ih, hcand]
      | some u =>
        by_cases hcond : (u.hostname = base.hostname ∧ denyMatch u.pathname = false)
            ∧ ¬u.pathname = base.pathname
        · have hcand : articleCandidates base resolve (some h :: rest)
              = u.href :: articleCandidates base resolve rest := by
            unfold articleCandidates
            simp [List.filterMap_cons, hr, hcond]
          by_cases hacc : acc.contains u.href
          · have hmem : u.href ∈ acc := listContains_iff_mem.mp hacc
            have hl : articleLinksLoop base resolve (some h :: rest) acc
                = articleLinksLoop base resolve rest acc := by
              simp [articleLinksLoop, hr, hcond.1.1, hmem]
            rw [hl, ih, hcand, List.foldl_cons,
              show insertNew acc u.href = acc from by unfold insertNew; rw [if_pos hacc]]
          · have hnm : u.href ∉ acc := fun hm => hacc (listContains_iff_mem.mpr hm)
            have hl : articleLinksLoop base resolve (some h :: rest) acc
                = articleLinksLoop base resolve rest (acc ++ [u.href]) := by
              simp [articleLinksLoop, hr, hcond.1.1, hnm, hcond.1.2, hcond.2]
            rw [hl, ih, hcand, List.foldl_cons,
              show insertNew acc u.href = acc ++ [u.href] from by
                unfold insertNew
                rw [if_neg hacc]]
        · have hcand : articleCandidates base resolve (some h :: rest)
              = articleCandidates base resolve rest := by
            unfold articleCandidates
            simp [List.filterMap_cons, hr, hcond]
          have hl : articleLinksLoop base resolve (some h :: rest) acc
              = articleLinksLoop base resolve rest acc := by
            by_cases hh : u.hostname = base.hostname
            · by_cases hacc : acc.contains u.href
              · have hmem : u.href ∈ acc := listContains_iff_mem.mp hacc
                simp [articleLinksLoop, hr, hh, hmem]
              · have hnm : u.href ∉ acc := fun hm => hacc (listContains_iff_mem.mpr hm)
                have hin : ¬(denyMatch u.pathname = false ∧ ¬u.pathname = base.pathname) := by
                  intro hcontr
                  exact hcond ⟨⟨hh, hcontr.1⟩, hcontr.2⟩
                simp [articleLinksLoop, hr, hh, hnm, hin]
            · simp [articleLinksLoop, hr, hh]
          rw [hl, ih, hcand]

theorem mem_articleCandidates {base : UrlObj} {resolve : Str → Option UrlObj}
    {anchors : List (Option Str)} {x : String}
    (hx : x ∈ articleCandidates base resolve anchors) :
    ∃ h u, some h ∈ anchors ∧ resolve h = some u ∧ u.hostname = base.hostname
      ∧ denyMatch u.pathname = false ∧ u.pathname ≠ base.pathname ∧ x = u.href := by
  unfold articleCandidates at hx
  rcases List.mem_filterMap.mp hx with ⟨h, hmem, hfn⟩
  rcases List.mem_filterMap.mp hmem with ⟨a, hamem, haid⟩
  rcases hr : resolve h with _ | u
  · rw [hr] at hfn
    cases hfn
  · rw [hr] at hfn
    by_cases hcond : (u.hostname = base.hostname && !(denyMatch u.pathname)
        && u.pathname != base.pathname) = true
    · have hx' : x = u.href := by
        simp only [hcond, if_true] at hfn
        injection hfn with h'
        exact h'.symm
      simp only [Bool.and_eq_true, decide_eq_true_eq, Bool.not_eq_true',
        bne_iff_ne, ne_eq] at hcond
      have ha : some h ∈ anchors := by
        cases a with
        | none => cases haid
        | some a' =>
          have : a' = h := by
            injection haid
          rw [← this]
          exact hamem
      exact ⟨h, u, ha, hr, hcond.1.1, hcond.1.2, hcond.2, hx'⟩
    · simp only [if_neg hcond] at hfn
      cases hfn

/-- C6: extractArticleLinks equals first-seen deduplication of the
spec-side candidate pipeline (resolve against base, keep same-hostname,
drop denylist paths and the listing page's own path), its result has no
duplicates, and every returned URL is a same-host resolved href avoiding
the denylist and the listing page path. -/
theorem extractArticleLinks_spec (anchors : List (Option Str)) (base : UrlObj)
    (resolve : Str → Option UrlObj) :
    extractArticleLinks anchors base resolve
      = dedupFirst (articleCandidates base resolve anchors)
    ∧ (extractArticleLinks anchors base resolve).Nodup
    ∧ ∀ x ∈ extractArticleLinks anchors base resolve,
        ∃ h u, some h ∈ anchors ∧ resolve h = some u ∧ u.hostname = base.hostname
          ∧ denyMatch u.pathname = false ∧ u.pathname ≠ base.pathname
          ∧ x = u.href := by
  have he : extractArticleLinks anchors base resolve
      = dedupFirst (articleCandidates base resolve anchors) := by
    unfold extractArticleLinks
    rw [articleLinksLoop_eq]
    exact dedupFirst_eq_self (nodup_dedupFirst _)
  refine ⟨he, ?_, ?_⟩
  · rw [he]
    exact nodup_dedupFirst _
  · intro x hx
    rw [he] at hx
    exact mem_articleCandidates (mem_dedupFirst.mp hx)

/-- Witness for extractArticleLinks_spec on the listing-page scenario: the
five blog-post links come back in order; the tag link, the listing page
itself, the malformed href and the duplicate are dropped. -/
theorem extractArticleLinks_spec_witness :
    extractArticleLinks wAnchors wBase wResolve
      = ["https://example.com/blog/a1", "https://example.com/blog/a2",
         "https://example.com/blog/a3", "https://example.com/blog/a4",
         "https://example.com/blog/a5"]
    ∧ (∃ h u, some h ∈ wAnchors ∧ wResolve h = some u ∧ u.hostname = wBase.hostname
        ∧ denyMatch u.pathname = false ∧ u.pathname ≠ wBase.pathname
        ∧ "https://example.com/blog/a1" = u.href) :=
  ⟨by decide,
   (extractArticleLinks_spec wAnchors wBase wResolve).2.2
     "https://example.com/blog/a1" (by decide)⟩

/-! Validation gate of the Discover stage and the word-count field. -/

theorem fetchArticle_some_inv {url : String} {title descr : Str}
    {keywords : List Str} {publishedAt : Option Str} {content : Str}
    {a : ExistingArticle}
    (h : fetchArticle url title descr keywords publishedAt content = some a) :
    a.title = title ∧ a.content = content.take 5000
      ∧ a.wordCount = jsWordCount content
      ∧ title ≠ [] ∧ 100 ≤ content.length := by
  unfold fetchArticle at h
  by_cases hcond : (title = [] || content.length < 100) = true
  · rw [if_pos hcond] at h
    cases h
  · rw [if_neg hcond] at h
    simp only [Option.some.injEq] at h
    subst h
    simp only [Bool.or_eq_true, decide_eq_true_eq, not_or] at hcond
    exact ⟨rfl, rfl, rfl, hcond.1, by omega⟩

theorem foldl_inventoryStep_invariant :
    ∀ (l : List CandidateFetch) (acc : List ExistingArticle),
      (∀ a ∈ acc, a.title ≠ [] ∧ 100 ≤ a.content.length) →
      ∀ a ∈ l.foldl inventoryStep acc, a.title ≠ [] ∧ 100 ≤ a.content.length := by
  intro l
  induction l with
  | nil => intro acc hacc; simpa using hacc
  | cons c rest ih =>
    intro acc hacc
    rw [List.foldl_cons]
    apply ih
    intro a ha
    cases c with
    | failed => exact hacc a ha
    | page url t d k p content =>
      have hm : a ∈ (match fetchArticle url t d k p content with
          | some b => acc ++ [b]
          | none => acc) := ha
      clear ha
      cases hf : fetchArticle url t d k p content with
      | none =>
        rw [hf] at hm
        exact hacc a hm
      | some b =>
        rw [hf] at hm
        rcases List.mem_append.mp hm with ha' | ha'
        · exact hacc a ha'
        · have hb : a = b := by simpa using ha'
          subst hb
          rcases fetchArticle_some_inv hf with ⟨ht, hc, _, hne, hlen⟩
          refine ⟨by rw [ht]; exact hne, ?_⟩
          rw [hc, List.length_take]
          omega

/-- C5: a fetched candidate is accepted into the inventory only if its
extracted title is nonempty and its extracted body has at least 100
characters; a candidate with empty title or short body yields none
(silently dropped) and never appears in the inventory. -/
theorem discover_validation_gate (url : String) (title descr : Str)
    (keywords : List Str) (publishedAt : Option Str) (content : Str) :
    (title = [] ∨ content.length < 100 →
        fetchArticle url title descr keywords publishedAt content = none)
    ∧ (title ≠ [] → 100 ≤ content.length →
        ∃ a, fetchArticle url title descr keywords publishedAt content = some a)
    ∧ ∀ cands : List CandidateFetch, ∀ a ∈ discoverInventory cands,
        a.title ≠ [] ∧ 100 ≤ a.content.length := by
  refine ⟨?_, ?_, ?_⟩
  · intro h
    unfold fetchArticle
    rw [if_pos ?_]
    rcases h with h | h
    · simp [h]
    · simp [h]
  · intro h1 h2
    unfold fetchArticle
    rw [if_neg ?_]
    · exact ⟨_, rfl⟩
    · simp only [Bool.or_eq_true, decide_eq_true_eq, not_or]
      exact ⟨h1, by omega⟩
  · intro cands a ha
    unfold discoverInventory at ha
    exact foldl_inventoryStep_invariant (cands.take 20) [] (by simp) a ha

set_option maxRecDepth 2000 in
/-- Witness for discover_validation_gate: an empty-title page is rejected,
and a 124-character body with a nonempty title is accepted. -/
theorem discover_validation_gate_witness :
    fetchArticle "u" [] [] [] none "x".toList = none
    ∧ ∃ a, fetchArticle "u" "T".toList [] [] none wContent = some a :=
  ⟨(discover_validation_gate "u" [] [] [] none "x".toList).1 (.inl rfl),
   (discover_validation_gate "u" "T".toList [] [] none wContent).2.1
     (by decide) (by decide)⟩

theorem jsSplitWsAux_replicate_nonws {c : Char} (hc : isWs c = false) :
    ∀ (n : Nat) (rest cur : Str) (acc : List Str),
      jsSplitWsAux (List.replicate n c ++ rest) false cur acc
        = jsSplitWsAux rest false (List.replicate n c ++ cur) acc := by
  intro n
  induction n with
  | zero => intro rest cur acc; simp
  | succ m ih =>
    intro rest cur acc
    rw [List.replicate_succ, List.cons_append,
      show jsSplitWsAux (c :: (List.replicate m c ++ rest)) false cur acc
        = jsSplitWsAux (List.replicate m c ++ rest) false (c :: cur) acc by
          simp [jsSplitWsAux, hc],
      ih rest (c :: cur) acc]
    rw [show List.replicate m c ++ c :: cur = c :: (List.replicate m c ++ cur) from by
      rw [show c :: (List.replicate m c ++ cur) = (c :: List.replicate m c) ++ cur from
        (List.cons_append c (List.replicate m c) cur).symm,
        ← List.replicate_succ, List.replicate_succ', List.append_assoc,
        List.singleton_append]]
    rw [List.cons_append]

theorem jsWordCount_bigContent : jsWordCount bigContent = 2 := by
  unfold jsWordCount jsSplitWs bigContent
  rw [jsSplitWsAux_replicate_nonws (by decide)]
  generalize List.replicate 5000 'a' = X
  simp [jsSplitWsAux, isWs]

theorem take_bigContent : bigContent.take 5000 = List.replicate 5000 'a' := by
  unfold bigContent
  exact List.take_left' (List.length_replicate 5000 'a')

theorem jsWordCount_replicate : jsWordCount (List.replicate 5000 'a') = 1 := by
  unfold jsWordCount jsSplitWs
  rw [(List.append_nil (List.replicate 5000 'a')).symm,
    jsSplitWsAux_replicate_nonws (by decide)]
  generalize List.replicate 5000 'a' = X
  simp [jsSplitWsAux]

/-- C9 counterexample: a validated article whose body is 5000 letters, a
space and one more word has wordCount 2, computed from the full text,
while the word count of the persisted (truncated) content is 1 — so
wordCount does count words beyond the first 5000 characters. -/
theorem wordCount_truncation_counterexample :
    ∃ a, fetchArticle "u" "T".toList [] [] none bigContent = some a
      ∧ a.wordCount = 2 ∧ jsWordCount a.content = 1
      ∧ a.wordCount ≠ jsWordCount a.content := by
  have hlen : (100 : Nat) ≤ bigContent.length := by
    unfold bigContent
    rw [List.length_append, List.length_replicate]
    decide
  rcases (discover_validation_gate "u" "T".toList [] [] none bigContent).2.1
      (by decide) hlen with ⟨a, ha⟩
  rcases fetchArticle_some_inv ha with ⟨_, hcont, hwc, _, _⟩
  refine ⟨a, ha, ?_, ?_, ?_⟩
  · rw [hwc, jsWordCount_bigContent]
  · rw [hcont, take_bigContent, jsWordCount_replicate]
  · rw [hwc, jsWordCount_bigContent, hcont, take_bigContent, jsWordCount_replicate]
    omega

/-- C9 amended: for every accepted article, the persisted content is the
body text truncated to 5000 characters, but wordCount is computed from the
full pre-truncation text, so it can count words beyond the first 5000
characters. -/
theorem fetchArticle_wordCount_full (url : String) (title descr : Str)
    (keywords : List Str) (publishedAt : Option Str) (content : Str)
    (a : ExistingArticle)
    (h : fetchArticle url title descr keywords publishedAt content = some a) :
    a.wordCount = jsWordCount content ∧ a.content = content.take 5000 := by
  rcases fetchArticle_some_inv h with ⟨_, hc, hw, _, _⟩
  exact ⟨hw, hc⟩

set_option maxRecDepth 4000 in
/-- Witness for fetchArticle_wordCount_full at a 124-character body. -/
theorem fetchArticle_wordCount_full_witness :
    ∃ a, fetchArticle "u" "T".toList [] [] none wContent = some a
      ∧ a.wordCount = jsWordCount wContent ∧ a.content = wContent.take 5000 := by
  rcases (discover_validation_gate "u" "T".toList [] [] none wContent).2.1
      (by decide) (by decide) with ⟨a, ha⟩
  exact ⟨a, ha,
    (fetchArticle_wordCount_full "u" "T".toList [] [] none wContent a ha).1,
    (fetchArticle_wordCount_full "u" "T".toList [] [] none wContent a ha).2⟩

/-! Extractor selection and provenance (content never taken from removed
elements). -/

theorem nodesTexts_append : ∀ l1 l2 : List Node,
    nodesTexts (l1 ++ l2) = nodesTexts l1 ++ nodesTexts l2 := by
  intro l1 l2
  induction l1 with
  | nil => simp [nodesTexts]
  | cons n ns ih =>
    rw [List.cons_append,
      show nodesTexts (n :: (ns ++ l2)) = nodeTexts n ++ nodesTexts (ns ++ l2) from rfl,
      show nodesTexts (n :: ns) = nodeTexts n ++ nodesTexts ns from rfl,
      ih, List.append_assoc]

mutual

theorem nodeText_eq_flatten : ∀ n : Node, nodeText n = (nodeTexts n).flatten
  | .text s => by
    rw [show nodeText (.text s) = s from rfl,
      show nodeTexts (.text s) = [s] from rfl]
    simp
  | .elem t c i r cs => by
    rw [show nodeText (.elem t c i r cs) = nodesText cs from rfl,
      show nodeTexts (.elem t c i r cs) = nodesTexts cs from rfl]
    exact nodesText_eq_flatten cs

theorem nodesText_eq_flatten : ∀ l : List Node, nodesText l = (nodesTexts l).flatten
  | [] => by
    rw [show nodesText [] = [] from rfl, show nodesTexts ([] : List Node) = [] from rfl]
    rfl
  | n :: ns => by
    rw [show nodesText (n :: ns) = nodeText n ++ nodesText ns from rfl,
      show nodesTexts (n :: ns) = nodeTexts n ++ nodesTexts ns from rfl,
      List.flatten_append, nodeText_eq_flatten n, nodesText_eq_flatten ns]

end

mutual

theorem textsOutsideRemoved_eq : ∀ n : Node,
    textsOutsideRemoved n = nodesTexts (pruneNode n)
  | .text s => by
    rw [show textsOutsideRemoved (.text s) = [s] from rfl,
      show pruneNode (.text s) = [.text s] from rfl,
      show nodesTexts [Node.text s] = nodeTexts (.text s) ++ nodesTexts [] from rfl]
    rfl
  | .elem t c i r cs => by
    by_cases hb : (removedTags.contains t || c.any (fun x => removedClasses.contains x)) = true
    · rw [show textsOutsideRemoved (.elem t c i r cs)
          = if isBoilerplate (.elem t c i r cs) then []
            else textsOutsideRemovedList cs from rfl]
      rw [show isBoilerplate (.elem t c i r cs)
          = (removedTags.contains t || c.any (fun x => removedClasses.contains x)) from rfl]
      rw [if_pos hb]
      rw [show pruneNode (.elem t c i r cs)
          = if removedTags.contains t || c.any (fun x => removedClasses.contains x) then []
            else [.elem t c i r (pruneList cs)] from rfl]
      rw [if_pos hb]
      rfl
    · rw [show textsOutsideRemoved (.elem t c i r cs)
          = if isBoilerplate (.elem t c i r cs) then []
            else textsOutsideRemovedList cs from rfl]
      rw [show isBoilerplate (.elem t c i r cs)
          = (removedTags.contains t || c.any (fun x => removedClasses.contains x)) from rfl]
      rw [if_neg hb]
      rw [show pruneNode (.elem t c i r cs)
          = if removedTags.contains t || c.any (fun x => removedClasses.contains x) then []
            else [.elem t c i r (pruneList cs)] from rfl]
      rw [if_neg hb]
      rw [show nodesTexts [Node.elem t c i r (pruneList cs)]
          = nodeTexts (.elem t c i r (pruneList cs)) ++ nodesTexts [] from rfl,
        show nodeTexts (.elem t c i r (pruneList cs)) = nodesTexts (pruneList cs) from rfl]
      rw [textsOutsideRemovedList_eq cs]
      simp [nodesTexts]

theorem textsOutsideRemovedList_eq : ∀ l : List Node,
    textsOutsideRemovedList l = nodesTexts (pruneList l)
  | [] => rfl
  | n :: ns => by
    rw [show textsOutsideRemovedList (n :: ns)
        = textsOutsideRemoved n ++ textsOutsideRemovedList ns from rfl,
      show pruneList (n :: ns) = pruneNode n ++ pruneList ns from rfl,
      nodesTexts_append, textsOutsideRemoved_eq n, textsOutsideRemovedList_eq ns]

end

mutual

theorem findFirst_texts (sel : Selector) :
    ∀ (n m : Node), findFirst sel n = some m → ∀ s ∈ nodeTexts m, s ∈ nodeTexts n
  | .text str, m => by
    intro h
    rw [show findFirst sel (.text str) = none from rfl] at h
    cases h
  | .elem t c i r cs, m => by
    intro h s hs
    rw [show findFirst sel (.elem t c i r cs)
        = if selMatches sel (.elem t c i r cs) then some (.elem t c i r cs)
          else findFirstList sel cs from rfl] at h
    by_cases hm : selMatches sel (.elem t c i r cs)
    · rw [if_pos hm] at h
      injection h with h'
      exact h' ▸ hs
    · rw [if_neg hm] at h
      exact findFirstList_texts sel cs m h s hs

theorem findFirstList_texts (sel : Selector) :
    ∀ (l : List Node) (m : Node), findFirstList sel l = some m →
      ∀ s ∈ nodeTexts m, s ∈ nodesTexts l
  | [], m => by
    intro h
    rw [show findFirstList sel [] = none from rfl] at h
    cases h
  | n :: ns, m => by
    intro h s hs
    rw [show findFirstList sel (n :: ns)
        = (match findFirst sel n with
           | some m' => some m'
           | none => findFirstList sel ns) from rfl] at h
    rw [show nodesTexts (n :: ns) = nodeTexts n ++ nodesTexts ns from rfl]
    cases hf : findFirst sel n with
    | some m' =>
      rw [hf] at h
      injection h with h'
      exact List.mem_append.mpr (.inl (findFirst_texts sel n m (h' ▸ hf) s hs))
    | none =>
      rw [hf] at h
      exact List.mem_append.mpr (.inr (findFirstList_texts sel ns m h s hs))

end

theorem firstSelectorMatch_texts :
    ∀ (sels : List Selector) (l : List Node) (m : Node),
      firstSelectorMatch sels l = some m → ∀ s ∈ nodeTexts m, s ∈ nodesTexts l := by
  intro sels
  induction sels with
  | nil =>
    intro l m h
    rw [show firstSelectorMatch [] l = none from rfl] at h
    cases h
  | cons sel rest ih =>
    intro l m h s hs
    rw [show firstSelectorMatch (sel :: rest) l
        = (match findFirstList sel l with
           | some n => some n
           | none => firstSelectorMatch rest l) from rfl] at h
    cases hf : findFirstList sel l with
    | some n =>
      rw [hf] at h
      injection h with h'
      exact findFirstList_texts sel l m (h' ▸ hf) s hs
    | none =>
      rw [hf] at h
      exact ih l m h s hs

theorem contentTexts_sub {body : Node} {s : Str} (hs : s ∈ contentTexts body) :
    s ∈ nodesTexts (pruneNode body) := by
  simp only [contentTexts] at hs
  cases hm : firstSelectorMatch mainSelectors (pruneNode body) with
  | none =>
    rw [hm] at hs
    exact hs
  | some n =>
    rw [hm] at hs
    have hs' : s ∈ (if nodeText n = [] then nodesTexts (pruneNode body)
        else nodeTexts n) := hs
    by_cases he : nodeText n = []
    · rw [if_pos he] at hs'
      exact hs'
    · rw [if_neg he] at hs'
      exact firstSelectorMatch_texts mainSelectors (pruneNode body) n hm s hs'

/-- C4 counterexample: in a document whose first matching content
container (a main element) has empty text but whose body holds other
text, extractMainContent does not return the (empty) text of the first
matching selector — it falls back to the body text even though a selector
matched. -/
theorem extractMainContent_fallback_counterexample :
    firstSelectorMatch mainSelectors
        (pruneNode (Node.elem "body" [] "" ""
          [Node.elem "main" [] "" "" [], Node.text "hello world".toList]))
      = some (Node.elem "main" [] "" "" [])
    ∧ extractMainContent (Node.elem "body" [] "" ""
          [Node.elem "main" [] "" "" [], Node.text "hello world".toList])
      ≠ normalizeWs (specClaimedContent (Node.elem "body" [] "" ""
          [Node.elem "main" [] "" "" [], Node.text "hello world".toList])) :=
  ⟨rfl, by decide⟩

/-- C4 amended: extractMainContent removes the boilerplate elements, then
returns the normalized text of the first matching content selector when
that text is nonempty; it falls back to the normalized full (pruned) body
text when no selector matches or when the first match's text is empty;
and every text fragment contributing to the output occurs outside every
removed element. -/
theorem extractMainContent_selection (body : Node) :
    (∀ n, firstSelectorMatch mainSelectors (pruneNode body) = some n →
        nodeText n ≠ [] → extractMainContent body = normalizeWs (nodeText n))
    ∧ (firstSelectorMatch mainSelectors (pruneNode body) = none →
        extractMainContent body = normalizeWs (nodesText (pruneNode body)))
    ∧ (∀ n, firstSelectorMatch mainSelectors (pruneNode body) = some n →
        nodeText n = [] → extractMainContent body = normalizeWs (nodesText (pruneNode body)))
    ∧ extractMainContent body = normalizeWs ((contentTexts body).flatten)
    ∧ (∀ s, s ∉ textsOutsideRemoved body → s ∉ contentTexts body) := by
  have hraw : ∀ n, firstSelectorMatch mainSelectors (pruneNode body) = some n →
      rawContent body = if nodeText n = [] then nodesText (pruneNode body)
        else nodeText n := by
    intro n hm
    simp only [rawContent]
    rw [hm]
  refine ⟨?_, ?_, ?_, ?_, ?_⟩
  · intro n hm hne
    unfold extractMainContent
    rw [hraw n hm, if_neg hne]
  · intro hm
    simp only [extractMainContent, rawContent]
    rw [hm, if_pos rfl]
  · intro n hm he
    unfold extractMainContent
    rw [hraw n hm, if_pos he]
  · unfold extractMainContent
    cases hm : firstSelectorMatch mainSelectors (pruneNode body) with
    | none =>
      simp only [rawContent, contentTexts]
      rw [hm, if_pos rfl, nodesText_eq_flatten]
    | some n =>
      have hred : contentTexts body
          = if nodeText n = [] then nodesTexts (pruneNode body) else nodeTexts n := by
        simp only [contentTexts]
        rw [hm]
      rw [hraw n hm, hred]
      by_cases he : nodeText n = []
      · rw [if_pos he, if_pos he, nodesText_eq_flatten]
      · rw [if_neg he, if_neg he, nodeText_eq_flatten]
  · intro s hout hin
    rw [textsOutsideRemoved_eq] at hout
    exact hout (contentTexts_sub hin)

/-- Witness for extractMainContent_selection on the extraction scenario:
the article landmark is the first match, its text is returned, and the
navigation text removed with the nav element does not contribute. -/
theorem extractMainContent_selection_witness :
    extractMainContent wDoc
      = normalizeWs (nodeText (Node.elem "article" [] "" ""
          [Node.text "The post body".toList]))
    ∧ "Home About".toList ∉ contentTexts wDoc :=
  ⟨(extractMainContent_selection wDoc).1
      (Node.elem "article" [] "" "" [Node.text "The post body".toList]) rfl (by decide),
   (extractMainContent_selection wDoc).2.2.2.2 ("Home About".toList) (by decide)⟩

end BlogBuilder
